import Mathlib

/-!
# Verification of `walk-qds.py`

A shallow embedding, in Lean 4, of the quality-level walker `walk-qds.py`:
a directory scan building a name → package table, a breadth-first walk of
the dependency graph recording first-seen depth and parent/child links,
a per-package quality-declaration reader, and a depth-first report pass.

Machine model conventions:
* the filesystem walk is an input list of directory entries, each carrying
  the outcome of parsing its `package.xml` (an `Except` models the parse
  exception raised by `lxml.etree.parse`);
* a quality-declaration file is `Option (List (List Char))`: `none` when
  `os.path.exists` is false, otherwise the list of its lines;
* the Python dict is an association list updated by prepending (lookup
  takes the first hit, so the newest binding wins, as assignment does);
* stdout is a list of tagged lines, with the report lines flushed after
  the loops, exactly as `strings_to_print` is.
-/

set_option autoImplicit false

namespace WalkQds

/-! ## Declaration reader (`quality_level_re` and lines 141–152)

`re.match(r'.*claims to be in the \*\*Quality Level ([1-5])\*\*', line)`
succeeds exactly when the literal claim text occurs anywhere in the line;
the greedy `.*` makes the group come from the rightmost occurrence. -/

/-- The fixed text that must follow the greedy `.*` in `quality_level_re`,
up to the capture group. -/
def qlPat : List Char := "claims to be in the **Quality Level ".toList

/-- `startsChars p cs` is true when `p` is an initial segment of `cs`. -/
def startsChars : List Char → List Char → Bool
  | [], _ => true
  | _ :: _, [] => false
  | p :: ps, c :: cs => p = c && startsChars ps cs

/-- Try the claim pattern at the current position: the literal text, then a
single digit `1`–`5` (the capture group, returned as its integer value via
`int(...)`), then `**`. -/
def qlAt (cs : List Char) : Option Nat :=
  if startsChars qlPat cs then
    match cs.drop qlPat.length with
    | d :: rest =>
      if d ∈ ['1', '2', '3', '4', '5'] then
        if startsChars "**".toList rest then some (d.toNat - 48) else none
      else none
    | [] => none
  else none

/-- `re.match` of `quality_level_re` against one line: the pattern may start
at any position (the `.*` consumes the rest); greedy matching means the
rightmost matching position supplies the captured digit. -/
def lineQL : List Char → Option Nat
  | [] => none
  | c :: cs =>
    match lineQL cs with
    | some n => some n
    | none => qlAt (c :: cs)

/-- The `for line in infp: … break` scan of lines 142–150: the first line
with a match supplies the level and stops the scan; if no line matches the
`for`'s `else:` branch reports absence (modelled as `none`). -/
def firstQualityLevel : List (List Char) → Option Nat
  | [] => none
  | l :: ls =>
    match lineQL l with
    | some n => some n
    | none => firstQualityLevel ls

example : lineQL "Foo claims to be in the **Quality Level 3**".toList = some 3 := by decide
example : lineQL "no claim here".toList = none := by decide
example : firstQualityLevel ["x".toList, "Foo claims to be in the **Quality Level 3**".toList] = some 3 := by decide

/-! ## Metadata scanner (lines 74–88) -/

/-- One child element of a parsed `package.xml`: `(tag, text)`. -/
abbrev XmlChild := String × String

/-- The `Package` record of lines 24–34, minus the mutable `depth` and
`children` fields, which the walk tracks in `BfsSt` (they start at `0`
and `[]` exactly as `__init__` sets them). -/
structure Package where
  name : String
  qdPath : String
  tree : List XmlChild
deriving DecidableEq

/-- One directory yielded by `os.walk`: its path, whether `package.xml` is
among its filenames, and the outcome of `lxml.etree.parse` on that file
(`Except.error` models the parser exception propagating). -/
structure DirEntry where
  dirpath : String
  hasPackageXml : Bool
  parse : Except String (List XmlChild)

/-- `os.path.join` for the paths this program builds. -/
def joinPath (d f : String) : String := d ++ "/" ++ f

/-- `package_name_to_package`, as an association list in which the first
hit wins. -/
abbrev Tbl := List (String × Package)

def lookupPkg (tb : Tbl) (n : String) : Option Package :=
  (tb.find? (fun kv => kv.1 == n)).map (fun kv => kv.2)

/-- Dict assignment `package_name_to_package[name] = pkg`: a prepended
binding shadows any earlier one, since `lookupPkg` takes the first hit
(the source's "last occurrence during the walk wins"). -/
def dictIns (tb : Tbl) (n : String) (p : Package) : Tbl := (n, p) :: tb

/-- Lines 80–88: the first child element with tag `name` names the package
(the loop `break`s after it); a tree without one registers nothing. -/
def firstNameTag : List XmlChild → Option String
  | [] => none
  | (tag, text) :: rest => if tag = "name" then some text else firstNameTag rest

/-- Lines 74–88: fold over the `os.walk` output. A directory without
`package.xml` is skipped; a `package.xml` that fails to parse raises
(`Except.error`), aborting the scan and with it the whole run. -/
def scanGo (acc : Tbl) : List DirEntry → Except String Tbl
  | [] => .ok acc
  | e :: rest =>
    if e.hasPackageXml then
      match e.parse with
      | .error m => .error m
      | .ok cs =>
        match firstNameTag cs with
        | some nm =>
          scanGo (dictIns acc nm ⟨nm, joinPath e.dirpath "QUALITY_DECLARATION.md", cs⟩) rest
        | none => scanGo acc rest
    else scanGo acc rest

def scanEntries (es : List DirEntry) : Except String Tbl := scanGo [] es

/-! ## Dependency graph builder (lines 99–123) -/

/-- The mutable traversal state: `packages_to_examine`, `depnames_found`,
`deps_not_found`, and the per-object `depth` and `children` attributes of
the shared `Package` objects, as name-keyed maps. -/
structure BfsSt where
  queue : List String
  found : List String
  notFound : List String
  depths : List (String × Nat)
  children : List (String × List String)

/-- Recorded `depth` attribute of a package object (initialised to `0`). -/
def depthOf (ds : List (String × Nat)) (n : String) : Nat :=
  ((ds.find? (fun kv => kv.1 == n)).map (fun kv => kv.2)).getD 0

/-- Recorded `children` attribute of a package object (initialised `[]`). -/
def childrenOfA (cm : List (String × List String)) (n : String) : List String :=
  ((cm.find? (fun kv => kv.1 == n)).map (fun kv => kv.2)).getD []

/-- `package.children.append(child)` on the shared object: rebind the
parent's list with the child appended at the end. -/
def addChild (cm : List (String × List String)) (p c : String) :
    List (String × List String) :=
  (p, childrenOfA cm p ++ [c]) :: cm

/-- `deps_not_found.add(n)` (a Python `set`, kept as a deduplicated list in
first-insertion order). -/
def nfAdd (nf : List String) (n : String) : List String :=
  if n ∈ nf then nf else nf ++ [n]

/-- The inner `for child in package.lxml_tree…` of lines 104–123: process
the dependency tags of the dequeued package `pname`, whose recorded depth
is `pd`, against the state. -/
def processDeps (tb : Tbl) (exclude : List String) (recurse : Bool)
    (pname : String) (pd : Nat) : List XmlChild → BfsSt → BfsSt
  | [], st => st
  | (tag, depname) :: rest, st =>
    if tag = "depend" ∨ tag = "build_depend" then
      if depname ∈ st.found then processDeps tb exclude recurse pname pd rest st
      else if depname ∈ exclude then processDeps tb exclude recurse pname pd rest st
      else
        match lookupPkg tb depname with
        | some _ =>
          processDeps tb exclude recurse pname pd rest
            { st with
              found := st.found ++ [depname]
              depths := (depname, pd + 1) :: st.depths
              children := addChild st.children pname depname
              queue := if recurse then st.queue ++ [depname] else st.queue }
        | none =>
          processDeps tb exclude recurse pname pd rest
            { st with
              found := st.found ++ [depname]
              notFound := nfAdd st.notFound depname }
    else processDeps tb exclude recurse pname pd rest st

/-- `package.lxml_tree.getroot().getchildren()` for a dequeued name. The
source indexes the dict directly; every dequeued name is a key of the
table (`bfs` invariant `queueF` below), so the `[]` default is never
taken on a reachable state. -/
def treeOf (tb : Tbl) (n : String) : List XmlChild :=
  ((lookupPkg tb n).map Package.tree).getD []

/-- The `while packages_to_examine:` loop of lines 102–123, with explicit
fuel; `bfsFuel` iterations provably empty the queue. -/
def bfsLoop (tb : Tbl) (exclude : List String) (recurse : Bool) :
    Nat → BfsSt → BfsSt
  | 0, st => st
  | fuel + 1, st =>
    match st.queue with
    | [] => st
    | p :: rest =>
      bfsLoop tb exclude recurse fuel
        (processDeps tb exclude recurse p (depthOf st.depths p) (treeOf tb p)
          { st with queue := rest })

/-- All dependency texts occurring anywhere in the table; together with the
root they bound how many names the walk can ever discover. -/
def allTexts (tb : Tbl) : List String :=
  tb.flatMap (fun kv => kv.2.tree.map Prod.snd)

def bfsFuel (tb : Tbl) : Nat := 1 + (allTexts tb).length

/-- Lines 99–101: queue seeded with the root, `depnames_found` starts as
`[package_name_to_examine]`. -/
def initSt (root : String) : BfsSt := ⟨[root], [root], [], [], []⟩

/-- Lines 99–123 as a whole. -/
def bfsRun (tb : Tbl) (exclude : List String) (recurse : Bool)
    (root : String) : BfsSt :=
  bfsLoop tb exclude recurse (bfsFuel tb) (initSt root)

/-! ## Report pass (lines 125–156) -/

/-- Output accumulated by the depth-first pass: warnings are printed as
they arise, `strings_to_print` is flushed afterwards (line 156). -/
structure PrSt where
  warns : List String
  reps : List String
deriving DecidableEq

def indentN : Nat → String
  | 0 => ""
  | k + 1 => "  " ++ indentN k

/-- `'%s%s: %d' % ('  ' * package.depth, package.name, int(groups[0]))`. -/
def renderLine (d : Nat) (n : String) (q : Nat) : String :=
  indentN d ++ n ++ ": " ++ toString q

def wQD (n : String) : String :=
  "WARNING: Could not find quality declaration for package '" ++ n ++ "', skipping"

def wQL (n : String) : String :=
  "WARNING: Could not find quality level for package '" ++ n ++ "', skipping"

def sepJoin : List String → String
  | [] => ""
  | [s] => s
  | s :: rest => s ++ ", " ++ sepJoin rest

/-- Line 126. CPython iterates the `set` in hash order; the model fixes
first-insertion order, which no claim depends on. -/
def nfMsg (ns : List String) : String :=
  "WARNING: Could not find dependencies '" ++ sepJoin ns ++ "', skipping"

/-- Lines 134–154: the `deps_to_print` deque loop. `qdl n` is the contents
of package `n`'s quality declaration (`none` when `os.path.exists` is
false), `dep n` its recorded depth, `cm` the children links.
`deque.extendleft` places the children reversed at the front, and a missing
declaration `continue`s past the extend. Fuel makes the recursion explicit;
the forest shape of the children links built by the walk bounds the
iterations. -/
def printLoopN (qdl : String → Option (List (List Char))) (dep : String → Nat)
    (cm : List (String × List String)) : Nat → List String → PrSt → PrSt
  | 0, _, st => st
  | _ + 1, [], st => st
  | fuel + 1, n :: rest, st =>
    match qdl n with
    | none => printLoopN qdl dep cm fuel rest { st with warns := st.warns ++ [wQD n] }
    | some ls =>
      match firstQualityLevel ls with
      | some q =>
        printLoopN qdl dep cm fuel ((childrenOfA cm n).reverse ++ rest)
          { st with reps := st.reps ++ [renderLine (dep n) n q] }
      | none =>
        printLoopN qdl dep cm fuel ((childrenOfA cm n).reverse ++ rest)
          { st with warns := st.warns ++ [wQL n] }

/-! ## `main` (lines 37–158) -/

/-- A stdout line, tagged by which `print` emitted it: the two fatal
messages, a `WARNING:` line, or a flushed report line. -/
inductive OutLine where
  | msg : String → OutLine
  | warn : String → OutLine
  | report : String → OutLine
deriving DecidableEq

def OutLine.isReport : OutLine → Bool
  | .report _ => true
  | _ => false

def excludeMsg (n : String) : String :=
  "Package name '" ++ n ++ "' must not be in the exclude list"

def missingMsg (n : String) : String :=
  "Could not find package to examine '" ++ n ++ "'"

/-- Quality-declaration file of a discovered name: the `Package` object in
the deque carries its `qd_path`; every name in the deque resolves, so the
`none` fallback is never taken on a reachable state. -/
def qdlOf (tb : Tbl) (qdFs : String → Option (List (List Char))) (n : String) :
    Option (List (List Char)) :=
  match lookupPkg tb n with
  | some p => qdFs p.qdPath
  | none => none

/-- Iteration bound for the report deque: one pop for the root plus at most
one per child link (each parent is visited at most once, and pushes its
current `children` list, whose length is counted in the flattened map). -/
def printFuel (F : BfsSt) : Nat :=
  1 + (F.children.flatMap Prod.snd).length + F.found.length

/-- `main` (lines 37–158). Inputs: the `os.walk` enumeration, the
declaration files keyed by path, the flags and the positional package
name. The result is the exit code with the stdout lines (report lines
flushed last, line 156), or `Except.error` when a `package.xml` parse
exception propagates out of the scan. -/
def mainRun (entries : List DirEntry)
    (qdFs : String → Option (List (List Char)))
    (recurse : Bool) (exclude : List String) (pkg : String) :
    Except String (Nat × List OutLine) :=
  if pkg ∈ exclude then .ok (1, [.msg (excludeMsg pkg)])
  else
    match scanEntries entries with
    | .error m => .error m
    | .ok tb =>
      match lookupPkg tb pkg with
      | none => .ok (2, [.msg (missingMsg pkg)])
      | some _ =>
        let F := bfsRun tb exclude recurse pkg
        let nfw : List OutLine :=
          if F.notFound.isEmpty then [] else [.warn (nfMsg F.notFound)]
        let P := printLoopN (qdlOf tb qdFs) (depthOf F.depths) F.children
          (printFuel F) [pkg] ⟨[], []⟩
        .ok (0, nfw ++ P.warns.map .warn ++ P.reps.map .report)

/-! ## Graph-level specification notions -/

/-- Resolvable: the name has an entry in the scanned table. -/
def Res (tb : Tbl) (n : String) : Prop := (lookupPkg tb n).isSome

instance (tb : Tbl) (n : String) : Decidable (Res tb n) := by
  unfold Res; infer_instance

/-- The dependency texts of an element list: the texts under a `depend` or
`build_depend` tag, in document order. -/
def elemsDeps (elems : List XmlChild) : List String :=
  elems.filterMap (fun e =>
    if e.1 = "depend" ∨ e.1 = "build_depend" then some e.2 else none)

/-- The dependency edges out of a name; empty for an unregistered name. -/
def depsOf (tb : Tbl) (n : String) : List String := elemsDeps (treeOf tb n)

/-- A dependency-edge path of length `k` from `a` to `b`, every stepped-to
name avoiding the exclusion list (the walk never enters an excluded name,
so the distance the walk realises is over such paths). -/
inductive ReachN (tb : Tbl) (exclude : List String) (a : String) : String → Nat → Prop
  | zero : ReachN tb exclude a a 0
  | succ {b c : String} {k : Nat} : ReachN tb exclude a b k →
      c ∈ depsOf tb b → c ∉ exclude → ReachN tb exclude a c (k + 1)

/-! ## Association-map lemmas -/

theorem depthOf_cons_self {n : String} {d : Nat} {ds : List (String × Nat)} :
    depthOf ((n, d) :: ds) n = d := by
  unfold depthOf
  rw [List.find?_cons_of_pos _ (by simp)]
  rfl

theorem depthOf_cons_ne {m n : String} {d : Nat} {ds : List (String × Nat)}
    (h : m ≠ n) : depthOf ((m, d) :: ds) n = depthOf ds n := by
  unfold depthOf
  rw [List.find?_cons_of_neg _ (by simp [h])]

theorem depthOf_eq_zero {ds : List (String × Nat)} {n : String}
    (h : ∀ kv ∈ ds, kv.1 ≠ n) : depthOf ds n = 0 := by
  unfold depthOf
  rw [List.find?_eq_none.2 (fun kv hkv => by simpa using h kv hkv)]
  rfl

theorem childrenOfA_addChild_self {cm : List (String × List String)}
    {p c : String} : childrenOfA (addChild cm p c) p = childrenOfA cm p ++ [c] := by
  unfold addChild childrenOfA
  rw [List.find?_cons_of_pos _ (by simp)]
  rfl

theorem childrenOfA_addChild_ne {cm : List (String × List String)}
    {p c q : String} (h : q ≠ p) :
    childrenOfA (addChild cm p c) q = childrenOfA cm q := by
  unfold addChild childrenOfA
  rw [List.find?_cons_of_neg _ (by simp [Ne.symm h])]

theorem Res_of_mem_depsOf {tb : Tbl} {n m : String} (h : m ∈ depsOf tb n) :
    Res tb n := by
  unfold depsOf treeOf at h
  cases hl : lookupPkg tb n with
  | none => rw [hl] at h; simp [elemsDeps] at h
  | some p => simp [Res, hl]

theorem mem_elemsDeps_of_mem {t x : String} {es : List XmlChild}
    (ht : t = "depend" ∨ t = "build_depend") (hm : (t, x) ∈ es) :
    x ∈ elemsDeps es :=
  List.mem_filterMap.2 ⟨(t, x), hm, by simp [ht]⟩

theorem mem_map_snd_of_mem_elemsDeps {x : String} {es : List XmlChild}
    (h : x ∈ elemsDeps es) : x ∈ es.map Prod.snd := by
  obtain ⟨e, he, hfe⟩ := List.mem_filterMap.1 h
  by_cases hc : e.1 = "depend" ∨ e.1 = "build_depend"
  · simp only [elemsDeps, hc, if_true] at hfe
    exact List.mem_map.2 ⟨e, he, by simpa using hfe⟩
  · simp [hc] at hfe

theorem mem_allTexts {tb : Tbl} {n x : String} (hres : Res tb n)
    (hx : x ∈ (treeOf tb n).map Prod.snd) : x ∈ allTexts tb := by
  obtain ⟨pk, hpk⟩ := Option.isSome_iff_exists.1 hres
  obtain ⟨kv, hfind, hkv⟩ := Option.map_eq_some'.1 hpk
  have hmem : kv ∈ tb := List.mem_of_find?_eq_some hfind
  have htree : treeOf tb n = pk.tree := by unfold treeOf; rw [hpk]; rfl
  rw [htree] at hx
  exact List.mem_flatMap.2 ⟨kv, hmem, by rw [hkv]; exact hx⟩

theorem elemsDeps_cons_tag {t x : String} {es : List XmlChild}
    (ht : t = "depend" ∨ t = "build_depend") :
    elemsDeps ((t, x) :: es) = x :: elemsDeps es := by
  simp [elemsDeps, ht]

theorem elemsDeps_cons_notag {t x : String} {es : List XmlChild}
    (ht : ¬(t = "depend" ∨ t = "build_depend")) :
    elemsDeps ((t, x) :: es) = elemsDeps es := by
  simp [elemsDeps, ht]

theorem bfsLoop_empty {tb : Tbl} {exclude : List String} {recurse : Bool}
    {fuel : Nat} {st : BfsSt} (h : st.queue = []) :
    bfsLoop tb exclude recurse fuel st = st := by
  cases fuel with
  | zero => rfl
  | succ f => simp [bfsLoop, h]

/-! ## Step equations for `processDeps` -/

section StepEq

variable {tb : Tbl} {exclude : List String} {recurse : Bool} {pname : String}
  {pd : Nat} {tag depname : String} {rest : List XmlChild} {st : BfsSt}

theorem processDeps_cons_notag (h : ¬(tag = "depend" ∨ tag = "build_depend")) :
    processDeps tb exclude recurse pname pd ((tag, depname) :: rest) st =
      processDeps tb exclude recurse pname pd rest st := by
  simp [processDeps, h]

theorem processDeps_cons_found (htag : tag = "depend" ∨ tag = "build_depend")
    (h : depname ∈ st.found) :
    processDeps tb exclude recurse pname pd ((tag, depname) :: rest) st =
      processDeps tb exclude recurse pname pd rest st := by
  simp [processDeps, htag, h]

theorem processDeps_cons_excl (htag : tag = "depend" ∨ tag = "build_depend")
    (hnf : depname ∉ st.found) (hex : depname ∈ exclude) :
    processDeps tb exclude recurse pname pd ((tag, depname) :: rest) st =
      processDeps tb exclude recurse pname pd rest st := by
  simp [processDeps, htag, hnf, hex]

theorem processDeps_cons_res (htag : tag = "depend" ∨ tag = "build_depend")
    (hnf : depname ∉ st.found) (hex : depname ∉ exclude) {pk : Package}
    (hres : lookupPkg tb depname = some pk) :
    processDeps tb exclude recurse pname pd ((tag, depname) :: rest) st =
      processDeps tb exclude recurse pname pd rest
        { st with
          found := st.found ++ [depname]
          depths := (depname, pd + 1) :: st.depths
          children := addChild st.children pname depname
          queue := if recurse then st.queue ++ [depname] else st.queue } := by
  simp [processDeps, htag, hnf, hex, hres]

theorem processDeps_cons_unres (htag : tag = "depend" ∨ tag = "build_depend")
    (hnf : depname ∉ st.found) (hex : depname ∉ exclude)
    (hres : lookupPkg tb depname = none) :
    processDeps tb exclude recurse pname pd ((tag, depname) :: rest) st =
      processDeps tb exclude recurse pname pd rest
        { st with
          found := st.found ++ [depname]
          notFound := nfAdd st.notFound depname } := by
  simp [processDeps, htag, hnf, hex, hres]

end StepEq

/-! ## Traversal invariants -/

/-- A package has finished being expanded: every non-excluded dependency of
its element list is discovered, a resolvable one at depth at most one more
than its own. -/
def ClosedAt (tb : Tbl) (exclude : List String) (st : BfsSt) (x : String) : Prop :=
  ∀ m ∈ depsOf tb x, m ∉ exclude →
    m ∈ st.found ∧ (Res tb m → depthOf st.depths m ≤ depthOf st.depths x + 1)

/-- Hypotheses under which the inner dependency loop runs: the state
invariants, plus facts about the dequeued package `pname` at recorded
depth `pd`. -/
structure PH (tb : Tbl) (exclude : List String) (root pname : String)
    (pd : Nat) (st : BfsSt) : Prop where
  nodupF : st.found.Nodup
  rootF : root ∈ st.found
  pF : pname ∈ st.found
  rootD : ∀ kv ∈ st.depths, kv.1 ≠ root
  dkeysF : ∀ kv ∈ st.depths, kv.1 ∈ st.found
  dkeysN : (st.depths.map Prod.fst).Nodup
  queueF : ∀ q ∈ st.queue, q ∈ st.found ∧ Res tb q
  FB : ∀ n ∈ st.found, Res tb n → depthOf st.depths n ≤ pd + 1
  sound : ∀ n ∈ st.found, Res tb n → ReachN tb exclude root n (depthOf st.depths n)
  hRp : ReachN tb exclude root pname pd
  cfMem : ∀ c q, c ∈ childrenOfA st.children q → c ∈ st.found
  cfUniq : ∀ c q1 q2, c ∈ childrenOfA st.children q1 →
    c ∈ childrenOfA st.children q2 → q1 = q2
  cfOnce : ∀ c q, (childrenOfA st.children q).count c ≤ 1

/-- What one run of the inner dependency loop guarantees, relating the
state before (`st`) and after (`st'`). -/
structure PD (tb : Tbl) (exclude : List String) (recurse : Bool)
    (root pname : String) (pd : Nat) (elems : List XmlChild)
    (st st' : BfsSt) : Prop where
  foundExt : ∃ ex2, st'.found = st.found ++ ex2
  ph' : PH tb exclude root pname pd st'
  stab : ∀ m ∈ st.found, depthOf st'.depths m = depthOf st.depths m
  qExt : ∃ ext, st'.queue = st.queue ++ ext ∧
    ∀ c ∈ ext, depthOf st'.depths c = pd + 1
  newFrom : ∀ n ∈ st'.found, n ∉ st.found → n ∈ elemsDeps elems
  closePart : ∀ m ∈ elemsDeps elems, m ∉ exclude → m ∈ st'.found
  newQ : recurse = true → ∀ n ∈ st'.found, n ∉ st.found → Res tb n →
    n ∈ st'.queue
  recFq : recurse = false → st'.queue = st.queue
  meas : st'.queue.length + st.found.length ≤ st.queue.length + st'.found.length

/-- Master lemma for the inner dependency loop: from the invariants `PH`,
one run of `processDeps` establishes the relation `PD`. -/
theorem processDeps_spec (tb : Tbl) (exclude : List String) (recurse : Bool)
    (root pname : String) (pd : Nat) :
    ∀ (elems : List XmlChild) (st : BfsSt),
      PH tb exclude root pname pd st →
      (∀ e ∈ elems, e ∈ treeOf tb pname) →
      PD tb exclude recurse root pname pd elems st
        (processDeps tb exclude recurse pname pd elems st) := by
  intro elems
  induction elems with
  | nil =>
    intro st hph _
    show PD tb exclude recurse root pname pd [] st st
    exact
      { foundExt := ⟨[], by simp⟩
        ph' := hph
        stab := fun m _ => rfl
        qExt := ⟨[], by simp, by simp⟩
        newFrom := fun n hn hn' => absurd hn hn'
        closePart := by intro m hm; simp [elemsDeps] at hm
        newQ := fun _ n hn hn' _ => absurd hn hn'
        recFq := fun _ => rfl
        meas := le_refl _ }
  | cons e rest ih =>
    obtain ⟨tag, depname⟩ := e
    intro st hph helems
    have helems' : ∀ x ∈ rest, x ∈ treeOf tb pname :=
      fun x hx => helems x (List.mem_cons_of_mem _ hx)
    by_cases htag : tag = "depend" ∨ tag = "build_depend"
    · by_cases hfound : depname ∈ st.found
      · rw [processDeps_cons_found htag hfound]
        have pdr := ih st hph helems'
        refine ⟨pdr.foundExt, pdr.ph', pdr.stab, pdr.qExt, ?_, ?_, pdr.newQ,
          pdr.recFq, pdr.meas⟩
        · intro n hn hn'
          rw [elemsDeps_cons_tag htag]
          exact List.mem_cons_of_mem _ (pdr.newFrom n hn hn')
        · intro m hm hmex
          rw [elemsDeps_cons_tag htag] at hm
          rcases List.mem_cons.1 hm with rfl | hm'
          · obtain ⟨ex2, hex2⟩ := pdr.foundExt
            rw [hex2]; exact List.mem_append_left _ hfound
          · exact pdr.closePart m hm' hmex
      · by_cases hex : depname ∈ exclude
        · rw [processDeps_cons_excl htag hfound hex]
          have pdr := ih st hph helems'
          refine ⟨pdr.foundExt, pdr.ph', pdr.stab, pdr.qExt, ?_, ?_, pdr.newQ,
            pdr.recFq, pdr.meas⟩
          · intro n hn hn'
            rw [elemsDeps_cons_tag htag]
            exact List.mem_cons_of_mem _ (pdr.newFrom n hn hn')
          · intro m hm hmex
            rw [elemsDeps_cons_tag htag] at hm
            rcases List.mem_cons.1 hm with rfl | hm'
            · exact absurd hex hmex
            · exact pdr.closePart m hm' hmex
        · cases hres : lookupPkg tb depname with
          | some pk =>
            rw [processDeps_cons_res htag hfound hex hres]
            set st2 : BfsSt :=
              { st with
                found := st.found ++ [depname]
                depths := (depname, pd + 1) :: st.depths
                children := addChild st.children pname depname
                queue := if recurse then st.queue ++ [depname] else st.queue }
              with hst2
            have hresd : Res tb depname := by simp [Res, hres]
            have hdeps : depname ∈ depsOf tb pname :=
              mem_elemsDeps_of_mem htag (helems _ (List.mem_cons_self _ _))
            have hfound2 : st2.found = st.found ++ [depname] := rfl
            have hq2 : st2.queue = st.queue ++ (if recurse then [depname] else []) := by
              cases recurse <;> simp [hst2]
            have hstab2 : ∀ m ∈ st.found, depthOf st2.depths m = depthOf st.depths m := by
              intro m hm
              have hne : depname ≠ m := fun h => hfound (h ▸ hm)
              exact depthOf_cons_ne hne
            have hdnew : depthOf st2.depths depname = pd + 1 := depthOf_cons_self
            have hm2 : ∀ m ∈ st.found, m ∈ st2.found :=
              fun m hm => List.mem_append_left _ hm
            have hd2 : depname ∈ st2.found :=
              List.mem_append_right _ (List.mem_singleton.2 rfl)
            have hph2 : PH tb exclude root pname pd st2 :=
              { nodupF := by
                  refine List.Nodup.append hph.nodupF (List.nodup_singleton _) ?_
                  intro a ha hb
                  rw [List.mem_singleton] at hb
                  subst hb; exact hfound ha
                rootF := hm2 _ hph.rootF
                pF := hm2 _ hph.pF
                rootD := by
                  intro kv hkv
                  rcases List.mem_cons.1 hkv with rfl | hkv'
                  · exact fun h =>
                      hfound ((show depname = root from h).symm ▸ hph.rootF)
                  · exact hph.rootD kv hkv'
                dkeysF := by
                  intro kv hkv
                  rcases List.mem_cons.1 hkv with rfl | hkv'
                  · exact hd2
                  · exact hm2 _ (hph.dkeysF kv hkv')
                dkeysN := by
                  simp only [hst2, List.map_cons]
                  refine List.nodup_cons.2 ⟨?_, hph.dkeysN⟩
                  intro hmem
                  obtain ⟨kv, hkv, hfst⟩ := List.mem_map.1 hmem
                  exact hfound (hfst ▸ hph.dkeysF kv hkv)
                queueF := by
                  intro q hq
                  rw [hq2] at hq
                  rcases List.mem_append.1 hq with hq' | hq'
                  · obtain ⟨h1, h2⟩ := hph.queueF q hq'
                    exact ⟨hm2 _ h1, h2⟩
                  · cases recurse with
                    | false => simp at hq'
                    | true =>
                      have hqd : q = depname := by simpa using hq'
                      rw [hqd]
                      exact ⟨hd2, hresd⟩
                FB := by
                  intro n hn hr
                  rcases List.mem_append.1 hn with hn' | hn'
                  · rw [hstab2 n hn']; exact hph.FB n hn' hr
                  · rw [List.mem_singleton.1 hn', hdnew]
                sound := by
                  intro n hn hr
                  rcases List.mem_append.1 hn with hn' | hn'
                  · rw [hstab2 n hn']; exact hph.sound n hn' hr
                  · rw [List.mem_singleton.1 hn', hdnew]
                    exact ReachN.succ hph.hRp hdeps hex
                hRp := hph.hRp
                cfMem := by
                  have hch : st2.children = addChild st.children pname depname := rfl
                  intro c q hc
                  rw [hch] at hc
                  by_cases hqp : q = pname
                  · rw [hqp, childrenOfA_addChild_self] at hc
                    rcases List.mem_append.1 hc with hc' | hc'
                    · exact hm2 _ (hph.cfMem c _ hc')
                    · rw [List.mem_singleton.1 hc']; exact hd2
                  · rw [childrenOfA_addChild_ne hqp] at hc
                    exact hm2 _ (hph.cfMem c q hc)
                cfUniq := by
                  have hch : st2.children = addChild st.children pname depname := rfl
                  intro c q1 q2 h1 h2
                  by_cases hc : c = depname
                  · subst hc
                    have e1 : q1 = pname := by
                      by_contra hne
                      rw [hch, childrenOfA_addChild_ne hne] at h1
                      exact hfound (hph.cfMem _ _ h1)
                    have e2 : q2 = pname := by
                      by_contra hne
                      rw [hch, childrenOfA_addChild_ne hne] at h2
                      exact hfound (hph.cfMem _ _ h2)
                    rw [e1, e2]
                  · have r1 : c ∈ childrenOfA st.children q1 := by
                      by_cases hq1 : q1 = pname
                      · subst hq1
                        rw [hch, childrenOfA_addChild_self] at h1
                        rcases List.mem_append.1 h1 with h1' | h1'
                        · exact h1'
                        · exact absurd (List.mem_singleton.1 h1') hc
                      · rw [hch, childrenOfA_addChild_ne hq1] at h1; exact h1
                    have r2 : c ∈ childrenOfA st.children q2 := by
                      by_cases hq2 : q2 = pname
                      · subst hq2
                        rw [hch, childrenOfA_addChild_self] at h2
                        rcases List.mem_append.1 h2 with h2' | h2'
                        · exact h2'
                        · exact absurd (List.mem_singleton.1 h2') hc
                      · rw [hch, childrenOfA_addChild_ne hq2] at h2; exact h2
                    exact hph.cfUniq c q1 q2 r1 r2
                cfOnce := by
                  have hch : st2.children = addChild st.children pname depname := rfl
                  intro c q
                  rw [hch]
                  by_cases hqp : q = pname
                  · rw [hqp, childrenOfA_addChild_self, List.count_append]
                    by_cases hc : c = depname
                    · subst hc
                      have h0 : (childrenOfA st.children pname).count c = 0 :=
                        List.count_eq_zero.2 (fun hmem => hfound (hph.cfMem _ _ hmem))
                      simp [h0]
                    · have h1 : ([depname] : List String).count c = 0 :=
                        List.count_eq_zero.2 (by simp [hc])
                      rw [h1, Nat.add_zero]
                      exact hph.cfOnce c pname
                  · rw [childrenOfA_addChild_ne hqp]
                    exact hph.cfOnce c q }
            have pdr := ih st2 hph2 helems'
            obtain ⟨ex2, hex2⟩ := pdr.foundExt
            obtain ⟨ext2, hext2, hextd⟩ := pdr.qExt
            refine ⟨⟨[depname] ++ ex2, by rw [hex2, hfound2, List.append_assoc]⟩,
              pdr.ph', ?_, ?_, ?_, ?_, ?_, ?_, ?_⟩
            · intro m hm
              rw [pdr.stab m (hm2 m hm)]
              exact hstab2 m hm
            · refine ⟨(if recurse then [depname] else []) ++ ext2, ?_, ?_⟩
              · rw [hext2, hq2, List.append_assoc]
              · intro c hc
                rcases List.mem_append.1 hc with hc' | hc'
                · cases recurse with
                  | false => simp at hc'
                  | true =>
                    have hcd : c = depname := by simpa using hc'
                    rw [hcd, pdr.stab depname hd2]
                    exact hdnew
                · exact hextd c hc'
            · intro n hn hn'
              rw [elemsDeps_cons_tag htag]
              by_cases hn2 : n ∈ st2.found
              · rw [hfound2] at hn2
                rcases List.mem_append.1 hn2 with h | h
                · exact absurd h hn'
                · rw [List.mem_singleton.1 h]; exact List.mem_cons_self _ _
              · exact List.mem_cons_of_mem _ (pdr.newFrom n hn hn2)
            · intro m hm hmex
              rw [elemsDeps_cons_tag htag] at hm
              rcases List.mem_cons.1 hm with rfl | hm'
              · rw [hex2]; exact List.mem_append_left _ hd2
              · exact pdr.closePart m hm' hmex
            · intro hrec n hn hn' hr
              by_cases hn2 : n ∈ st2.found
              · rw [hfound2] at hn2
                rcases List.mem_append.1 hn2 with h | h
                · exact absurd h hn'
                · rw [List.mem_singleton.1 h]
                  rw [hext2]
                  refine List.mem_append_left _ ?_
                  rw [hq2, hrec]
                  exact List.mem_append_right _ (List.mem_singleton.2 rfl)
              · exact pdr.newQ hrec n hn hn2 hr
            · intro hrec
              rw [pdr.recFq hrec, hq2, hrec]
              simp
            · have l1 := pdr.meas
              have l2 : st2.found.length = st.found.length + 1 := by
                rw [hfound2, List.length_append, List.length_singleton]
              have l3 : st2.queue.length ≤ st.queue.length + 1 := by
                rw [hq2, List.length_append]
                cases recurse <;> simp
              omega
          | none =>
            rw [processDeps_cons_unres htag hfound hex hres]
            set st2 : BfsSt :=
              { st with
                found := st.found ++ [depname]
                notFound := nfAdd st.notFound depname }
              with hst2
            have hnres : ¬ Res tb depname := by simp [Res, hres]
            have hfound2 : st2.found = st.found ++ [depname] := rfl
            have hm2 : ∀ m ∈ st.found, m ∈ st2.found :=
              fun m hm => List.mem_append_left _ hm
            have hd2 : depname ∈ st2.found :=
              List.mem_append_right _ (List.mem_singleton.2 rfl)
            have hph2 : PH tb exclude root pname pd st2 :=
              { nodupF := by
                  refine List.Nodup.append hph.nodupF (List.nodup_singleton _) ?_
                  intro a ha hb
                  rw [List.mem_singleton] at hb
                  subst hb; exact hfound ha
                rootF := hm2 _ hph.rootF
                pF := hm2 _ hph.pF
                rootD := hph.rootD
                dkeysF := fun kv hkv => hm2 _ (hph.dkeysF kv hkv)
                dkeysN := hph.dkeysN
                queueF := fun q hq =>
                  ⟨hm2 _ (hph.queueF q hq).1, (hph.queueF q hq).2⟩
                FB := by
                  intro n hn hr
                  rcases List.mem_append.1 hn with hn' | hn'
                  · exact hph.FB n hn' hr
                  · rw [List.mem_singleton.1 hn'] at hr
                    exact absurd hr hnres
                sound := by
                  intro n hn hr
                  rcases List.mem_append.1 hn with hn' | hn'
                  · exact hph.sound n hn' hr
                  · rw [List.mem_singleton.1 hn'] at hr
                    exact absurd hr hnres
                hRp := hph.hRp
                cfMem := fun c q hc => hm2 _ (hph.cfMem c q hc)
                cfUniq := hph.cfUniq
                cfOnce := hph.cfOnce }
            have pdr := ih st2 hph2 helems'
            obtain ⟨ex2, hex2⟩ := pdr.foundExt
            refine ⟨⟨[depname] ++ ex2, by rw [hex2, hfound2, List.append_assoc]⟩,
              pdr.ph', ?_, pdr.qExt, ?_, ?_, ?_, pdr.recFq, ?_⟩
            · intro m hm
              exact pdr.stab m (hm2 m hm)
            · intro n hn hn'
              rw [elemsDeps_cons_tag htag]
              by_cases hn2 : n ∈ st2.found
              · rw [hfound2] at hn2
                rcases List.mem_append.1 hn2 with h | h
                · exact absurd h hn'
                · rw [List.mem_singleton.1 h]; exact List.mem_cons_self _ _
              · exact List.mem_cons_of_mem _ (pdr.newFrom n hn hn2)
            · intro m hm hmex
              rw [elemsDeps_cons_tag htag] at hm
              rcases List.mem_cons.1 hm with rfl | hm'
              · rw [hex2]; exact List.mem_append_left _ hd2
              · exact pdr.closePart m hm' hmex
            · intro hrec n hn hn' hr
              by_cases hn2 : n ∈ st2.found
              · rw [hfound2] at hn2
                rcases List.mem_append.1 hn2 with h | h
                · exact absurd h hn'
                · rw [List.mem_singleton.1 h] at hr
                  exact absurd hr hnres
              · exact pdr.newQ hrec n hn hn2 hr
            · have l1 := pdr.meas
              have l2 : st2.found.length = st.found.length + 1 := by
                rw [hfound2, List.length_append, List.length_singleton]
              have l3 : st2.queue.length = st.queue.length := rfl
              omega
    · rw [processDeps_cons_notag htag]
      have pdr := ih st hph helems'
      refine ⟨pdr.foundExt, pdr.ph', pdr.stab, pdr.qExt, ?_, ?_, pdr.newQ,
        pdr.recFq, pdr.meas⟩
      · intro n hn hn'
        rw [elemsDeps_cons_notag htag]
        exact pdr.newFrom n hn hn'
      · intro m hm
        rw [elemsDeps_cons_notag htag] at hm
        exact pdr.closePart m hm

/-- The outer-loop invariant. `band` is the classical two-level queue shape
of breadth-first search; `closureT` (available when every resolvable
discovery is re-enqueued, i.e. under `--recurse`) says every discovered
resolvable package is either still queued or fully expanded. -/
structure Inv (tb : Tbl) (exclude : List String) (recurse : Bool)
    (root : String) (st : BfsSt) : Prop where
  nodupF : st.found.Nodup
  rootF : root ∈ st.found
  rootD : ∀ kv ∈ st.depths, kv.1 ≠ root
  dkeysF : ∀ kv ∈ st.depths, kv.1 ∈ st.found
  dkeysN : (st.depths.map Prod.fst).Nodup
  queueF : ∀ q ∈ st.queue, q ∈ st.found ∧ Res tb q
  sound : ∀ n ∈ st.found, Res tb n → ReachN tb exclude root n (depthOf st.depths n)
  cfMem : ∀ c q, c ∈ childrenOfA st.children q → c ∈ st.found
  cfUniq : ∀ c q1 q2, c ∈ childrenOfA st.children q1 →
    c ∈ childrenOfA st.children q2 → q1 = q2
  cfOnce : ∀ c q, (childrenOfA st.children q).count c ≤ 1
  candsF : ∀ n ∈ st.found, n = root ∨ n ∈ allTexts tb
  band : ∃ d A B, st.queue = A ++ B ∧ (∀ a ∈ A, depthOf st.depths a = d) ∧
    (∀ b ∈ B, depthOf st.depths b = d + 1) ∧
    (∀ n ∈ st.found, Res tb n → depthOf st.depths n ≤ d + 1)
  closureT : recurse = true → ∀ x ∈ st.found, Res tb x →
    x ∈ st.queue ∨ ClosedAt tb exclude st x

theorem found_le_bfsFuel {tb : Tbl} {root : String} {fnd : List String}
    (hnd : fnd.Nodup) (hc : ∀ n ∈ fnd, n = root ∨ n ∈ allTexts tb) :
    fnd.length ≤ bfsFuel tb := by
  have hsub : fnd ⊆ root :: allTexts tb := by
    intro n hn
    rcases hc n hn with rfl | h
    · exact List.mem_cons_self _ _
    · exact List.mem_cons_of_mem _ h
  have hle := (List.subperm_of_subset hnd hsub).length_le
  rw [List.length_cons] at hle
  unfold bfsFuel
  omega

/-- Running the loop from an invariant state with the measure within the
fuel empties the queue and preserves the invariant. -/
theorem bfsLoop_spec (tb : Tbl) (exclude : List String) (recurse : Bool)
    (root : String) :
    ∀ (fuel : Nat) (st : BfsSt), Inv tb exclude recurse root st →
      st.queue.length + (bfsFuel tb - st.found.length) ≤ fuel →
      Inv tb exclude recurse root (bfsLoop tb exclude recurse fuel st) ∧
        (bfsLoop tb exclude recurse fuel st).queue = [] := by
  intro fuel
  induction fuel with
  | zero =>
    intro st hinv hm
    have hq : st.queue = [] := List.length_eq_zero.1 (by omega)
    rw [bfsLoop_empty hq]
    exact ⟨hinv, hq⟩
  | succ fuel ih =>
    intro st hinv hm
    obtain ⟨q, fnd, nf, ds, cm⟩ := st
    cases q with
    | nil => exact ⟨hinv, rfl⟩
    | cons p rest =>
      have hpF : p ∈ fnd := (hinv.queueF p (List.mem_cons_self _ _)).1
      have hpR : Res tb p := (hinv.queueF p (List.mem_cons_self _ _)).2
      obtain ⟨d0, A0, B0, hsplit, hA0, hB0, hFB0⟩ := hinv.band
      have hsplit' : p :: rest = A0 ++ B0 := hsplit
      have hnorm : ∃ d A2 B2, rest = A2 ++ B2 ∧ depthOf ds p = d ∧
          (∀ a ∈ A2, depthOf ds a = d) ∧ (∀ b ∈ B2, depthOf ds b = d + 1) ∧
          (∀ n ∈ fnd, Res tb n → depthOf ds n ≤ d + 1) := by
        cases A0 with
        | nil =>
          rw [List.nil_append] at hsplit'
          refine ⟨d0 + 1, rest, [], by simp, ?_, ?_, by simp, ?_⟩
          · exact hB0 p (hsplit' ▸ List.mem_cons_self _ _)
          · intro a ha
            exact hB0 a (hsplit' ▸ List.mem_cons_of_mem _ ha)
          · intro n hn hr
            exact (hFB0 n hn hr).trans (Nat.le_succ _)
        | cons a A0' =>
          rw [List.cons_append] at hsplit'
          injection hsplit' with h1 h2
          refine ⟨d0, A0', B0, h2, ?_,
            fun a' ha' => hA0 a' (List.mem_cons_of_mem _ ha'), hB0, hFB0⟩
          rw [h1]
          exact hA0 a (List.mem_cons_self _ _)
      obtain ⟨d, A2, B2, hrest, hpd, hA2, hB2, hFBd⟩ := hnorm
      have hph : PH tb exclude root p d ⟨rest, fnd, nf, ds, cm⟩ :=
        { nodupF := hinv.nodupF
          rootF := hinv.rootF
          pF := hpF
          rootD := hinv.rootD
          dkeysF := hinv.dkeysF
          dkeysN := hinv.dkeysN
          queueF := fun x hx => hinv.queueF x (List.mem_cons_of_mem _ hx)
          FB := hFBd
          sound := hinv.sound
          hRp := by
            have h := hinv.sound p hpF hpR
            rw [show depthOf ds p = d from hpd] at h
            exact h
          cfMem := hinv.cfMem
          cfUniq := hinv.cfUniq
          cfOnce := hinv.cfOnce }
      have pdr := processDeps_spec tb exclude recurse root p d (treeOf tb p)
        ⟨rest, fnd, nf, ds, cm⟩ hph (fun e he => he)
      set st' := processDeps tb exclude recurse p d (treeOf tb p)
        ⟨rest, fnd, nf, ds, cm⟩ with hst'
      obtain ⟨ext, hqe, hde⟩ := pdr.qExt
      have hqe' : st'.queue = rest ++ ext := hqe
      have hcands : ∀ n ∈ st'.found, n = root ∨ n ∈ allTexts tb := by
        intro n hn
        by_cases hold : n ∈ fnd
        · exact hinv.candsF n hold
        · right
          exact mem_allTexts hpR
            (mem_map_snd_of_mem_elemsDeps (pdr.newFrom n hn hold))
      have hinv' : Inv tb exclude recurse root st' :=
        { nodupF := pdr.ph'.nodupF
          rootF := pdr.ph'.rootF
          rootD := pdr.ph'.rootD
          dkeysF := pdr.ph'.dkeysF
          dkeysN := pdr.ph'.dkeysN
          queueF := pdr.ph'.queueF
          sound := pdr.ph'.sound
          cfMem := pdr.ph'.cfMem
          cfUniq := pdr.ph'.cfUniq
          cfOnce := pdr.ph'.cfOnce
          candsF := hcands
          band := by
            refine ⟨d, A2, B2 ++ ext, ?_, ?_, ?_, pdr.ph'.FB⟩
            · rw [hqe', hrest, List.append_assoc]
            · intro a ha
              have haf : a ∈ fnd :=
                (hinv.queueF a (List.mem_cons_of_mem _
                  (hrest ▸ List.mem_append_left _ ha))).1
              rw [pdr.stab a haf]
              exact hA2 a ha
            · intro b hb
              rcases List.mem_append.1 hb with hb' | hb'
              · have hbf : b ∈ fnd :=
                  (hinv.queueF b (List.mem_cons_of_mem _
                    (hrest ▸ List.mem_append_right _ hb'))).1
                rw [pdr.stab b hbf]
                exact hB2 b hb'
              · exact hde b hb'
          closureT := by
            intro hrec x hx hrx
            by_cases hold : x ∈ fnd
            · rcases hinv.closureT hrec x hold hrx with hxq | hxc
              · rcases List.mem_cons.1 hxq with rfl | hxr
                · right
                  intro m hm hmex
                  have hmf := pdr.closePart m hm hmex
                  refine ⟨hmf, ?_⟩
                  intro hrm
                  have h1 := pdr.ph'.FB m hmf hrm
                  have h2 : depthOf st'.depths x = d := by
                    rw [pdr.stab x hold]; exact hpd
                  rw [h2]
                  exact h1
                · left
                  rw [hqe']
                  exact List.mem_append_left _ hxr
              · right
                intro m hm hmex
                obtain ⟨hmf, hmd⟩ := hxc m hm hmex
                obtain ⟨e2, he2⟩ := pdr.foundExt
                refine ⟨by rw [he2]; exact List.mem_append_left _ hmf, ?_⟩
                intro hrm
                rw [pdr.stab m hmf, pdr.stab x hold]
                exact hmd hrm
            · left
              exact pdr.newQ hrec x hx hold hrx }
      have hlen2 : st'.found.length ≤ bfsFuel tb :=
        found_le_bfsFuel pdr.ph'.nodupF hcands
      have hlen3 : fnd.length ≤ st'.found.length := by
        obtain ⟨e2, he2⟩ := pdr.foundExt
        rw [show st'.found = fnd ++ e2 from he2, List.length_append]
        omega
      have hlen1 : st'.queue.length + fnd.length ≤ rest.length + st'.found.length :=
        pdr.meas
      have hm' : rest.length + 1 + (bfsFuel tb - fnd.length) ≤ fuel + 1 := by
        simpa using hm
      have hmeas : st'.queue.length + (bfsFuel tb - st'.found.length) ≤ fuel := by
        omega
      have hgoal := ih st' hinv' hmeas
      show Inv tb exclude recurse root
          (bfsLoop tb exclude recurse fuel
            (processDeps tb exclude recurse p (depthOf ds p) (treeOf tb p)
              ⟨rest, fnd, nf, ds, cm⟩)) ∧
        (bfsLoop tb exclude recurse fuel
            (processDeps tb exclude recurse p (depthOf ds p) (treeOf tb p)
              ⟨rest, fnd, nf, ds, cm⟩)).queue = []
      rw [show depthOf ds p = d from hpd]
      exact hgoal

/-- The seeded state satisfies the invariant whenever the root resolves
(the `main` precondition established by the exit-2 check). -/
theorem inv_init {tb : Tbl} {exclude : List String} {recurse : Bool}
    {root : String} (hr : Res tb root) :
    Inv tb exclude recurse root (initSt root) :=
  { nodupF := List.nodup_singleton _
    rootF := List.mem_singleton.2 rfl
    rootD := by intro kv hkv; simp [initSt] at hkv
    dkeysF := by intro kv hkv; simp [initSt] at hkv
    dkeysN := by simp [initSt]
    queueF := by
      intro q hq
      have hq' : q = root := by simpa [initSt] using hq
      rw [hq']
      exact ⟨List.mem_singleton.2 rfl, hr⟩
    sound := by
      intro n hn hrn
      have hn' : n = root := by simpa [initSt] using hn
      rw [hn', show depthOf (initSt root).depths root = 0 from rfl]
      exact ReachN.zero
    cfMem := by intro c q hc; simp [initSt, childrenOfA] at hc
    cfUniq := by intro c q1 q2 h1 h2; simp [initSt, childrenOfA] at h1
    cfOnce := by intro c q; simp [initSt, childrenOfA]
    candsF := by
      intro n hn
      left
      simpa [initSt] using hn
    band := by
      refine ⟨0, [root], [], rfl, ?_, by simp, ?_⟩
      · intro a ha
        rw [List.mem_singleton.1 ha]; rfl
      · intro n hn hrn
        have hn' : n = root := by simpa [initSt] using hn
        rw [hn', show depthOf (initSt root).depths root = 0 from rfl]
        omega
    closureT := by
      intro _ x hx hrx
      left
      simpa [initSt] using hx }

/-- The walk as run by `main`: invariant established and queue emptied. -/
theorem bfsRun_inv {tb : Tbl} {exclude : List String} {recurse : Bool}
    {root : String} (hr : Res tb root) :
    Inv tb exclude recurse root (bfsRun tb exclude recurse root) ∧
      (bfsRun tb exclude recurse root).queue = [] := by
  have h1 : 1 ≤ bfsFuel tb := by unfold bfsFuel; omega
  have hm : (initSt root).queue.length +
      (bfsFuel tb - (initSt root).found.length) ≤ bfsFuel tb := by
    show 1 + (bfsFuel tb - 1) ≤ bfsFuel tb
    omega
  exact bfsLoop_spec tb exclude recurse root (bfsFuel tb) (initSt root)
    (inv_init hr) hm

/-- Completeness/minimality: on the final state every name with a
dependency-edge path from the root is discovered at depth at most the
path's length (induction over the path, using queue-emptiness and the
closure invariant). -/
theorem bfs_min {tb : Tbl} {exclude : List String} {root : String}
    {st : BfsSt} (hinv : Inv tb exclude true root st) (hq : st.queue = []) :
    ∀ {n : String} {k : Nat}, ReachN tb exclude root n k →
      n ∈ st.found ∧ (Res tb n → depthOf st.depths n ≤ k) := by
  intro n k h
  induction h with
  | zero =>
    refine ⟨hinv.rootF, fun _ => ?_⟩
    rw [depthOf_eq_zero hinv.rootD]
  | @succ b c k hab hmem hex ih =>
    obtain ⟨hbF, hbD⟩ := ih
    have hresb : Res tb b := Res_of_mem_depsOf hmem
    have hcl : ClosedAt tb exclude st b :=
      (hinv.closureT rfl b hbF hresb).resolve_left (by rw [hq]; simp)
    obtain ⟨hcF, hcD⟩ := hcl c hmem hex
    refine ⟨hcF, fun hresc => ?_⟩
    have h1 := hcD hresc
    have h2 := hbD hresb
    omega

/-- C1: with the recurse flag set, every package discovered by the
breadth-first walk has its recorded depth realised by a dependency-edge
path from the root and minimal among all such path lengths (i.e. it equals
the shortest-path distance); the depth keys are pairwise distinct, so each
discovered package is assigned a depth exactly once, at first discovery;
and no package is recorded as a child of two different parents, nor twice
under the same parent — a rediscovery neither revises the depth nor adds
the package as a child elsewhere. -/
theorem bfs_depth_is_shortest_path (tb : Tbl) (exclude : List String)
    (root : String) (hr : Res tb root) :
    (∀ n ∈ (bfsRun tb exclude true root).found, Res tb n →
        ReachN tb exclude root n (depthOf (bfsRun tb exclude true root).depths n) ∧
        ∀ k, ReachN tb exclude root n k →
          depthOf (bfsRun tb exclude true root).depths n ≤ k) ∧
      ((bfsRun tb exclude true root).depths.map Prod.fst).Nodup ∧
      (∀ c q1 q2, c ∈ childrenOfA (bfsRun tb exclude true root).children q1 →
        c ∈ childrenOfA (bfsRun tb exclude true root).children q2 → q1 = q2) ∧
      (∀ c q, (childrenOfA (bfsRun tb exclude true root).children q).count c ≤ 1) := by
  obtain ⟨hinv, hq⟩ := @bfsRun_inv tb exclude true root hr
  refine ⟨?_, hinv.dkeysN, hinv.cfUniq, hinv.cfOnce⟩
  intro n hn hres
  exact ⟨hinv.sound n hn hres, fun k hk => (bfs_min hinv hq hk).2 hres⟩

/-- C2: on every dependency graph — cyclic ones included — the walk
terminates with its work queue provably drained within `bfsFuel`
iterations, and the discovered list `depnames_found` holds each name at
most once. -/
theorem bfs_terminates_no_duplicates (tb : Tbl) (exclude : List String)
    (recurse : Bool) (root : String) (hr : Res tb root) :
    (bfsRun tb exclude recurse root).queue = [] ∧
      (bfsRun tb exclude recurse root).found.Nodup := by
  obtain ⟨hinv, hq⟩ := bfsRun_inv hr
  exact ⟨hq, hinv.nodupF⟩

/-- A diamond-with-detour table: `R → A, D`; `A → B`; `B → C`; `D → C`.
`C` is reachable in 2 steps through `D` and in 3 through `A, B`. -/
def tbDiamond : Tbl :=
  [("R", ⟨"R", "s/R/QUALITY_DECLARATION.md",
      [("name", "R"), ("depend", "A"), ("depend", "D")]⟩),
   ("A", ⟨"A", "s/A/QUALITY_DECLARATION.md",
      [("name", "A"), ("depend", "B")]⟩),
   ("B", ⟨"B", "s/B/QUALITY_DECLARATION.md",
      [("name", "B"), ("depend", "C")]⟩),
   ("C", ⟨"C", "s/C/QUALITY_DECLARATION.md", [("name", "C")]⟩),
   ("D", ⟨"D", "s/D/QUALITY_DECLARATION.md",
      [("name", "D"), ("depend", "C")]⟩)]

/-- A two-cycle: `A` depends on `B` and `B` depends on `A`. -/
def tbCyc : Tbl :=
  [("A", ⟨"A", "c/A/QUALITY_DECLARATION.md",
      [("name", "A"), ("depend", "B")]⟩),
   ("B", ⟨"B", "c/B/QUALITY_DECLARATION.md",
      [("name", "B"), ("depend", "A")]⟩)]

theorem bfs_depth_is_shortest_path_witness :
    Res tbDiamond "R" ∧ "C" ∈ (bfsRun tbDiamond [] true "R").found ∧
      (ReachN tbDiamond [] "R" "C"
          (depthOf (bfsRun tbDiamond [] true "R").depths "C") ∧
        ∀ k, ReachN tbDiamond [] "R" "C" k →
          depthOf (bfsRun tbDiamond [] true "R").depths "C" ≤ k) :=
  ⟨by decide, by decide,
    (bfs_depth_is_shortest_path tbDiamond [] "R" (by decide)).1 "C"
      (by decide) (by decide)⟩

theorem bfs_terminates_no_duplicates_witness :
    Res tbCyc "A" ∧ ((bfsRun tbCyc [] true "A").queue = [] ∧
      (bfsRun tbCyc [] true "A").found.Nodup) :=
  ⟨by decide, bfs_terminates_no_duplicates tbCyc [] true "A" (by decide)⟩

/-- Without `--recurse` nothing is ever enqueued, so the walk stops after
expanding the root: only the root and its direct dependency names can be
discovered. -/
theorem bfs_norecurse_found (tb : Tbl) (exclude : List String) (root : String)
    (hr : Res tb root) :
    ∀ n ∈ (bfsRun tb exclude false root).found, n = root ∨ n ∈ depsOf tb root := by
  have hph : PH tb exclude root root 0 ⟨[], [root], [], [], []⟩ :=
    { nodupF := List.nodup_singleton _
      rootF := List.mem_singleton.2 rfl
      pF := List.mem_singleton.2 rfl
      rootD := by intro kv hkv; simp at hkv
      dkeysF := by intro kv hkv; simp at hkv
      dkeysN := by simp
      queueF := by intro q hq; simp at hq
      FB := by
        intro n hn hrn
        have hn' : n = root := by simpa using hn
        rw [hn']
        show depthOf [] root ≤ 0 + 1
        rw [show depthOf [] root = 0 from rfl]
        omega
      sound := by
        intro n hn hrn
        have hn' : n = root := by simpa using hn
        rw [hn']
        show ReachN tb exclude root root (depthOf [] root)
        rw [show depthOf [] root = 0 from rfl]
        exact ReachN.zero
      hRp := ReachN.zero
      cfMem := by intro c q hc; simp [childrenOfA] at hc
      cfUniq := by intro c q1 q2 h1 h2; simp [childrenOfA] at h1
      cfOnce := by intro c q; simp [childrenOfA] }
  have pdr := processDeps_spec tb exclude false root root 0 (treeOf tb root)
    ⟨[], [root], [], [], []⟩ hph (fun e he => he)
  set st' := processDeps tb exclude false root 0 (treeOf tb root)
    ⟨[], [root], [], [], []⟩ with hst'
  have hq' : st'.queue = [] := pdr.recFq rfl
  have hrun : bfsRun tb exclude false root = st' := by
    unfold bfsRun
    have hf : bfsFuel tb = (allTexts tb).length + 1 := by unfold bfsFuel; omega
    rw [hf]
    have hstep : bfsLoop tb exclude false ((allTexts tb).length + 1) (initSt root) =
        bfsLoop tb exclude false (allTexts tb).length st' := rfl
    rw [hstep, bfsLoop_empty hq']
  intro n hn
  rw [hrun] at hn
  by_cases h : n ∈ ([root] : List String)
  · left; simpa using h
  · right
    exact pdr.newFrom n hn (by simpa using h)

/-- The `os.walk` entries for the scenario source tree: `R` depends on `A`
and `B` (one `depend`, one `build_depend` tag), `A` depends on `C`. -/
def entsScenario : List DirEntry :=
  [⟨"s/R", true, .ok [("name", "R"), ("depend", "A"), ("build_depend", "B")]⟩,
   ⟨"s/A", true, .ok [("name", "A"), ("depend", "C")]⟩,
   ⟨"s/B", true, .ok [("name", "B")]⟩,
   ⟨"s/C", true, .ok [("name", "C")]⟩]

/-- Quality declarations for the scenario tree: levels 1–4. -/
def qdScenario (p : String) : Option (List (List Char)) :=
  if p = "s/R/QUALITY_DECLARATION.md" then
    some ["R claims to be in the **Quality Level 1**".toList]
  else if p = "s/A/QUALITY_DECLARATION.md" then
    some ["A claims to be in the **Quality Level 2**".toList]
  else if p = "s/B/QUALITY_DECLARATION.md" then
    some ["B claims to be in the **Quality Level 3**".toList]
  else if p = "s/C/QUALITY_DECLARATION.md" then
    some ["C claims to be in the **Quality Level 4**".toList]
  else none

/-- C8: with `--recurse` off, only the root and its direct dependency
names are ever discovered (dependencies of dependencies are not expanded);
and on the scenario `R → A, B`, `A → C`, the non-recursive run reports
`R`, `B`, `A` only while the recursive run additionally reports `C` at
depth 2 (indent `    `). -/
theorem recurse_flag_semantics :
    (∀ (tb : Tbl) (exclude : List String) (root : String), Res tb root →
      ∀ n ∈ (bfsRun tb exclude false root).found, n = root ∨ n ∈ depsOf tb root) ∧
    mainRun entsScenario qdScenario false [] "R" =
      .ok (0, [.report "R: 1", .report "  B: 3", .report "  A: 2"]) ∧
    mainRun entsScenario qdScenario true [] "R" =
      .ok (0, [.report "R: 1", .report "  B: 3", .report "  A: 2",
        .report "    C: 4"]) :=
  ⟨bfs_norecurse_found, by rfl, by rfl⟩

theorem recurse_flag_semantics_witness :
    Res tbDiamond "R" ∧ ("A" = "R" ∨ "A" ∈ depsOf tbDiamond "R") :=
  ⟨by decide,
    recurse_flag_semantics.1 tbDiamond [] "R" (by decide) "A" (by decide)⟩

/-- C9: the declaration reader takes the quality level from the first line
matching the claim pattern — whatever lines follow are irrelevant, so the
scan effectively stops at the first match; the example document whose one
line is `Foo claims to be in the **Quality Level 3**` yields level 3; and
it signals not-found exactly when no line of the document matches. -/
theorem reader_first_match :
    (∀ (pre : List (List Char)) (l : List Char) (post : List (List Char)) (n : Nat),
      (∀ l' ∈ pre, lineQL l' = none) → lineQL l = some n →
      firstQualityLevel (pre ++ l :: post) = some n) ∧
    firstQualityLevel ["Foo claims to be in the **Quality Level 3**".toList] =
      some 3 ∧
    (∀ ls : List (List Char), (∀ l ∈ ls, lineQL l = none) →
      firstQualityLevel ls = none) := by
  refine ⟨?_, by decide, ?_⟩
  · intro pre l post n hpre hl
    induction pre with
    | nil => simp [firstQualityLevel, hl]
    | cons x xs ih =>
      have hx : lineQL x = none := hpre x (List.mem_cons_self _ _)
      simp only [List.cons_append, firstQualityLevel, hx]
      exact ih (fun l' hl' => hpre l' (List.mem_cons_of_mem _ hl'))
  · intro ls h
    induction ls with
    | nil => rfl
    | cons x xs ih =>
      have hx : lineQL x = none := h x (List.mem_cons_self _ _)
      simp only [firstQualityLevel, hx]
      exact ih (fun l' hl' => h l' (List.mem_cons_of_mem _ hl'))

theorem reader_first_match_witness :
    firstQualityLevel ["no match on this line".toList,
      "B claims to be in the **Quality Level 2**".toList,
      "B claims to be in the **Quality Level 5**".toList] = some 2 :=
  reader_first_match.1 ["no match on this line".toList]
    ("B claims to be in the **Quality Level 2**".toList)
    ["B claims to be in the **Quality Level 5**".toList] 2
    (by decide) (by decide)

/-! ## C3: scan behaviour on malformed metadata -/

/-- A walk in which the second directory's `package.xml` is malformed. -/
def entsBadParse : List DirEntry :=
  [⟨"t/R", true, .ok [("name", "R")]⟩,
   ⟨"t/X", true, .error "XMLSyntaxError in t/X/package.xml"⟩,
   ⟨"t/B", true, .ok [("name", "B")]⟩]

/-- C3 counterexample: a `package.xml` that fails to parse is fatal. The
unguarded `lxml.etree.parse` exception propagates out of the scan, so the
run aborts (no exit code, no lookup for the later well-formed entries)
instead of skipping the file and continuing. -/
theorem scan_parse_error_aborts :
    mainRun entsBadParse qdScenario true [] "R" =
      .error "XMLSyntaxError in t/X/package.xml" := by rfl

/-- C3 amended: a metadata file that parses but declares no `name` element
is skipped with no entry created and the scan continues; but a metadata
file that fails to parse raises, aborting the scan — and the run — with
that error. -/
theorem scan_parse_error_amended :
    (∀ (acc : Tbl) (e : DirEntry) (rest : List DirEntry) (m : String),
      e.hasPackageXml = true → e.parse = .error m →
      scanGo acc (e :: rest) = .error m) ∧
    (∀ (acc : Tbl) (e : DirEntry) (rest : List DirEntry) (cs : List XmlChild),
      e.hasPackageXml = true → e.parse = .ok cs → firstNameTag cs = none →
      scanGo acc (e :: rest) = scanGo acc rest) := by
  constructor
  · intro acc e rest m h1 h2
    obtain ⟨dp, hx, pr⟩ := e
    simp only at h1 h2
    subst h1
    subst h2
    rfl
  · intro acc e rest cs h1 h2 h3
    obtain ⟨dp, hx, pr⟩ := e
    simp only at h1 h2
    subst h1
    subst h2
    simp [scanGo, h3]

theorem scan_parse_error_amended_witness :
    scanGo [] [⟨"t/X", true, .error "boom"⟩] = .error "boom" :=
  scan_parse_error_amended.1 [] ⟨"t/X", true, .error "boom"⟩ [] "boom" rfl rfl

@[simp] theorem isReport_msg (s : String) : (OutLine.msg s).isReport = false := rfl
@[simp] theorem isReport_warn (s : String) : (OutLine.warn s).isReport = false := rfl
@[simp] theorem isReport_report (s : String) : (OutLine.report s).isReport = true := rfl

/-- C6: whenever `main` returns an exit code, the code is 1 exactly when
the target package is in the exclusion list (and then the only output is
the configuration-error message — no traversal), 2 exactly when it is not
excluded but absent from the scanned lookup table (only the not-found
message), and 0 exactly otherwise — warnings never change the code. -/
theorem exit_codes_spec (entries : List DirEntry)
    (qdFs : String → Option (List (List Char))) (recurse : Bool)
    (exclude : List String) (pkg : String) (c : Nat) (out : List OutLine)
    (h : mainRun entries qdFs recurse exclude pkg = .ok (c, out)) :
    (c = 1 ↔ pkg ∈ exclude) ∧
    (c = 1 → out = [.msg (excludeMsg pkg)]) ∧
    (∀ tb, scanEntries entries = .ok tb →
      ((c = 2 ↔ pkg ∉ exclude ∧ lookupPkg tb pkg = none) ∧
       (c = 2 → out = [.msg (missingMsg pkg)]) ∧
       (c = 0 ↔ pkg ∉ exclude ∧ (lookupPkg tb pkg).isSome))) := by
  unfold mainRun at h
  by_cases hex : pkg ∈ exclude
  · rw [if_pos hex] at h
    simp only [Except.ok.injEq, Prod.mk.injEq] at h
    obtain ⟨hc, hout⟩ := h
    refine ⟨⟨fun _ => hex, fun _ => hc.symm⟩, fun _ => hout.symm, ?_⟩
    intro tb _
    exact ⟨⟨fun h2 => by omega, fun h2 => absurd hex h2.1⟩,
      fun h2 => by omega, ⟨fun h0 => by omega, fun h0 => absurd hex h0.1⟩⟩
  · rw [if_neg hex] at h
    cases hscan0 : scanEntries entries with
    | error m => rw [hscan0] at h; simp at h
    | ok tb0 =>
      rw [hscan0] at h
      dsimp only at h
      cases hlook : lookupPkg tb0 pkg with
      | none =>
        rw [hlook] at h
        simp only [Except.ok.injEq, Prod.mk.injEq] at h
        obtain ⟨hc, hout⟩ := h
        refine ⟨⟨fun h1 => by omega, fun hex' => absurd hex' hex⟩,
          fun h1 => by omega, ?_⟩
        intro tb hscan
        injection hscan with htb
        subst htb
        refine ⟨⟨fun _ => ⟨hex, hlook⟩, fun _ => hc.symm⟩, fun _ => hout.symm,
          ⟨fun h0 => by omega, fun h0 => ?_⟩⟩
        rw [hlook] at h0
        simp at h0
      | some pk =>
        rw [hlook] at h
        simp only [Except.ok.injEq, Prod.mk.injEq] at h
        obtain ⟨hc, hout⟩ := h
        refine ⟨⟨fun h1 => by omega, fun hex' => absurd hex' hex⟩,
          fun h1 => by omega, ?_⟩
        intro tb hscan
        injection hscan with htb
        subst htb
        refine ⟨⟨fun h2 => by omega, fun h2 => ?_⟩, fun h2 => by omega,
          ⟨fun _ => ⟨hex, by rw [hlook]; rfl⟩, fun _ => hc.symm⟩⟩
        rw [hlook] at h2
        simp at h2

theorem exit_codes_spec_witness :
    ((1 : Nat) = 1 ↔ "R" ∈ (["R"] : List String)) :=
  (exit_codes_spec entsScenario qdScenario false ["R"] "R" 1
    [.msg (excludeMsg "R")] (by rfl)).1

/-- C7: in any run that returns, the stdout lines split into a prefix of
diagnostics (fatal messages and `WARNING:` lines, printed as the loops
run) followed by the flushed report lines: no report line ever precedes a
warning. -/
theorem warnings_before_report (entries : List DirEntry)
    (qdFs : String → Option (List (List Char))) (recurse : Bool)
    (exclude : List String) (pkg : String) (c : Nat) (out : List OutLine)
    (h : mainRun entries qdFs recurse exclude pkg = .ok (c, out)) :
    ∃ a b, out = a ++ b ∧ (∀ l ∈ a, l.isReport = false) ∧
      ∀ l ∈ b, l.isReport = true := by
  unfold mainRun at h
  by_cases hex : pkg ∈ exclude
  · rw [if_pos hex] at h
    simp only [Except.ok.injEq, Prod.mk.injEq] at h
    obtain ⟨hc, hout⟩ := h
    refine ⟨[.msg (excludeMsg pkg)], [], by rw [← hout]; rfl, ?_, by simp⟩
    intro l hl
    rw [List.mem_singleton.1 hl]
    rfl
  · rw [if_neg hex] at h
    cases hscan0 : scanEntries entries with
    | error m => rw [hscan0] at h; simp at h
    | ok tb0 =>
      rw [hscan0] at h
      dsimp only at h
      cases hlook : lookupPkg tb0 pkg with
      | none =>
        rw [hlook] at h
        simp only [Except.ok.injEq, Prod.mk.injEq] at h
        obtain ⟨hc, hout⟩ := h
        refine ⟨[.msg (missingMsg pkg)], [], by rw [← hout]; rfl, ?_, by simp⟩
        intro l hl
        rw [List.mem_singleton.1 hl]
        rfl
      | some pk =>
        rw [hlook] at h
        simp only [Except.ok.injEq, Prod.mk.injEq] at h
        obtain ⟨hc, hout⟩ := h
        rw [← hout]
        refine ⟨_ ++ List.map OutLine.warn _, List.map OutLine.report _,
          rfl, ?_, ?_⟩
        · intro l hl
          rcases List.mem_append.1 hl with hl' | hl'
          · by_cases hnf : (bfsRun tb0 exclude recurse pkg).notFound.isEmpty
            · rw [if_pos hnf] at hl'
              simp at hl'
            · rw [if_neg hnf] at hl'
              rw [List.mem_singleton.1 hl']
              rfl
          · obtain ⟨s, _, rfl⟩ := List.mem_map.1 hl'
            rfl
        · intro l hl
          obtain ⟨s, _, rfl⟩ := List.mem_map.1 hl
          rfl

/-- The scenario with one unresolvable dependency: `R` depends on `Z`,
which is nowhere in the tree. -/
def entsWarn : List DirEntry :=
  [⟨"w/R", true, .ok [("name", "R"), ("depend", "Z")]⟩]

def qdWarn (p : String) : Option (List (List Char)) :=
  if p = "w/R/QUALITY_DECLARATION.md" then
    some ["R claims to be in the **Quality Level 5**".toList]
  else none

theorem warnings_before_report_witness :
    ∃ a b, ([.warn (nfMsg ["Z"]), .report "R: 5"] : List OutLine) = a ++ b ∧
      (∀ l ∈ a, l.isReport = false) ∧ ∀ l ∈ b, l.isReport = true :=
  warnings_before_report entsWarn qdWarn false [] "R" 0
    [.warn (nfMsg ["Z"]), .report "R: 5"] (by rfl)

/-! ## Trees for the report pass

The `Package` objects of the report deque form a forest (each object is
appended as a child at most once — `bfs_depth_is_shortest_path`), so the
deque contents can be described by trees whose labels match the recorded
children links. -/

inductive PTree where
  | node : String → List PTree → PTree

def labelOf : PTree → String
  | .node n _ => n

mutual
def sizeT : PTree → Nat
  | .node _ cs => 1 + sizeL cs
def sizeL : List PTree → Nat
  | [] => 0
  | t :: ts => sizeT t + sizeL ts
end

theorem sizeT_pos (t : PTree) : 1 ≤ sizeT t := by
  cases t with
  | node n cs => rw [sizeT]; omega

theorem sizeL_append (l1 l2 : List PTree) :
    sizeL (l1 ++ l2) = sizeL l1 + sizeL l2 := by
  induction l1 with
  | nil => simp [sizeL]
  | cons t ts ih =>
    rw [List.cons_append, sizeL, sizeL, ih]
    omega

theorem sizeL_reverse (l : List PTree) : sizeL l.reverse = sizeL l := by
  induction l with
  | nil => rfl
  | cons t ts ih =>
    rw [List.reverse_cons, sizeL_append, ih, sizeL, sizeL, sizeL]
    omega

theorem sizeL_eq_zero {l : List PTree} (h : sizeL l = 0) : l = [] := by
  cases l with
  | nil => rfl
  | cons t ts =>
    exfalso
    have h1 := sizeT_pos t
    rw [sizeL] at h
    omega

/-- A tree describes the recorded children links: its label's recorded
children are exactly its subtrees' labels, recursively. -/
inductive TreeMatches (cm : List (String × List String)) : PTree → Prop
  | node (n : String) (cs : List PTree) :
      cs.map labelOf = childrenOfA cm n →
      (∀ t ∈ cs, TreeMatches cm t) →
      TreeMatches cm (.node n cs)

/-- The report deque loop, phrased on trees: the head tree's node is
handled exactly as in `printLoopN`, and its children (reversed, as
`extendleft` does) go to the front of the queue. -/
def loopT (qdl : String → Option (List (List Char))) (dep : String → Nat) :
    List PTree → PrSt → PrSt
  | [], st => st
  | .node n cs :: rest, st =>
    match qdl n with
    | none => loopT qdl dep rest { st with warns := st.warns ++ [wQD n] }
    | some ls =>
      match firstQualityLevel ls with
      | some q =>
        loopT qdl dep (cs.reverse ++ rest)
          { st with reps := st.reps ++ [renderLine (dep n) n q] }
      | none =>
        loopT qdl dep (cs.reverse ++ rest)
          { st with warns := st.warns ++ [wQL n] }
termination_by ts _ => sizeL ts
decreasing_by
  all_goals simp only [sizeL, sizeT, sizeL_append, sizeL_reverse]
  all_goals omega

/-- The fuelled name-queue loop of the implementation agrees with the
structural tree walk whenever the queue is the label list of matching
trees and the fuel covers their total size. -/
theorem printLoopN_eq_loopT (qdl : String → Option (List (List Char)))
    (dep : String → Nat) (cm : List (String × List String)) :
    ∀ (fuel : Nat) (ts : List PTree) (st : PrSt),
      (∀ t ∈ ts, TreeMatches cm t) → sizeL ts ≤ fuel →
      printLoopN qdl dep cm fuel (ts.map labelOf) st = loopT qdl dep ts st := by
  intro fuel
  induction fuel with
  | zero =>
    intro ts st _ hs
    have hts : ts = [] := sizeL_eq_zero (Nat.le_zero.1 hs)
    subst hts
    simp [printLoopN, loopT]
  | succ fuel ih =>
    intro ts st hm hs
    cases ts with
    | nil => simp [printLoopN, loopT]
    | cons t ts' =>
      obtain ⟨n, cs⟩ := t
      have hmt := hm _ (List.mem_cons_self _ _)
      have hm' : ∀ t ∈ ts', TreeMatches cm t :=
        fun t ht => hm t (List.mem_cons_of_mem _ ht)
      cases hmt with
      | node _ _ hlab hsub =>
        cases hqd : qdl n with
        | none =>
          have hstep : printLoopN qdl dep cm (fuel + 1)
              ((PTree.node n cs :: ts').map labelOf) st =
              printLoopN qdl dep cm fuel (ts'.map labelOf)
                { st with warns := st.warns ++ [wQD n] } := by
            simp [printLoopN, labelOf, hqd]
          have hstep2 : loopT qdl dep (PTree.node n cs :: ts') st =
              loopT qdl dep ts' { st with warns := st.warns ++ [wQD n] } := by
            simp [loopT, hqd]
          rw [hstep, hstep2]
          refine ih ts' _ hm' ?_
          have h1 := sizeT_pos (PTree.node n cs)
          rw [sizeL] at hs
          omega
        | some ls =>
          have hsz : sizeL (cs.reverse ++ ts') ≤ fuel := by
            rw [sizeL_append, sizeL_reverse]
            rw [sizeL, sizeT] at hs
            omega
          have hmm : ∀ t ∈ cs.reverse ++ ts', TreeMatches cm t := by
            intro t ht
            rcases List.mem_append.1 ht with ht' | ht'
            · exact hsub t (List.mem_reverse.1 ht')
            · exact hm' t ht'
          have hql : (childrenOfA cm n).reverse ++ ts'.map labelOf =
              (cs.reverse ++ ts').map labelOf := by
            rw [← hlab, ← List.map_reverse, ← List.map_append]
          cases hfq : firstQualityLevel ls with
          | some q =>
            have hstep : printLoopN qdl dep cm (fuel + 1)
                ((PTree.node n cs :: ts').map labelOf) st =
                printLoopN qdl dep cm fuel
                  ((childrenOfA cm n).reverse ++ ts'.map labelOf)
                  { st with reps := st.reps ++ [renderLine (dep n) n q] } := by
              simp [printLoopN, labelOf, hqd, hfq]
            have hstep2 : loopT qdl dep (PTree.node n cs :: ts') st =
                loopT qdl dep (cs.reverse ++ ts')
                  { st with reps := st.reps ++ [renderLine (dep n) n q] } := by
              simp [loopT, hqd, hfq]
            rw [hstep, hql, hstep2]
            exact ih _ _ hmm hsz
          | none =>
            have hstep : printLoopN qdl dep cm (fuel + 1)
                ((PTree.node n cs :: ts').map labelOf) st =
                printLoopN qdl dep cm fuel
                  ((childrenOfA cm n).reverse ++ ts'.map labelOf)
                  { st with warns := st.warns ++ [wQL n] } := by
              simp [printLoopN, labelOf, hqd, hfq]
            have hstep2 : loopT qdl dep (PTree.node n cs :: ts') st =
                loopT qdl dep (cs.reverse ++ ts')
                  { st with warns := st.warns ++ [wQL n] } := by
              simp [loopT, hqd, hfq]
            rw [hstep, hql, hstep2]
            exact ih _ _ hmm hsz

/-- The tree walk is compositional: the head group of the queue is fully
rendered before the tail is touched. -/
theorem loopT_append (qdl : String → Option (List (List Char)))
    (dep : String → Nat) :
    ∀ (N : Nat) (ts1 ts2 : List PTree) (st : PrSt), sizeL ts1 ≤ N →
      loopT qdl dep (ts1 ++ ts2) st = loopT qdl dep ts2 (loopT qdl dep ts1 st) := by
  intro N
  induction N with
  | zero =>
    intro ts1 ts2 st hs
    have h1 : ts1 = [] := sizeL_eq_zero (Nat.le_zero.1 hs)
    subst h1
    simp [loopT]
  | succ N ih =>
    intro ts1 ts2 st hs
    cases ts1 with
    | nil => simp [loopT]
    | cons t ts1' =>
      obtain ⟨n, cs⟩ := t
      cases hqd : qdl n with
      | none =>
        have e1 : loopT qdl dep ((PTree.node n cs :: ts1') ++ ts2) st =
            loopT qdl dep (ts1' ++ ts2)
              { st with warns := st.warns ++ [wQD n] } := by
          simp [loopT, hqd]
        have e2 : loopT qdl dep (PTree.node n cs :: ts1') st =
            loopT qdl dep ts1' { st with warns := st.warns ++ [wQD n] } := by
          simp [loopT, hqd]
        rw [e1, e2]
        refine ih ts1' ts2 _ ?_
        have h1 := sizeT_pos (PTree.node n cs)
        rw [sizeL] at hs
        omega
      | some ls =>
        have hsz : sizeL (cs.reverse ++ ts1') ≤ N := by
          rw [sizeL_append, sizeL_reverse]
          rw [sizeL, sizeT] at hs
          omega
        cases hfq : firstQualityLevel ls with
        | some q =>
          have e1 : loopT qdl dep ((PTree.node n cs :: ts1') ++ ts2) st =
              loopT qdl dep ((cs.reverse ++ ts1') ++ ts2)
                { st with reps := st.reps ++ [renderLine (dep n) n q] } := by
            simp [loopT, hqd, hfq]
          have e2 : loopT qdl dep (PTree.node n cs :: ts1') st =
              loopT qdl dep (cs.reverse ++ ts1')
                { st with reps := st.reps ++ [renderLine (dep n) n q] } := by
            simp [loopT, hqd, hfq]
          rw [e1, e2]
          exact ih _ ts2 _ hsz
        | none =>
          have e1 : loopT qdl dep ((PTree.node n cs :: ts1') ++ ts2) st =
              loopT qdl dep ((cs.reverse ++ ts1') ++ ts2)
                { st with warns := st.warns ++ [wQL n] } := by
            simp [loopT, hqd, hfq]
          have e2 : loopT qdl dep (PTree.node n cs :: ts1') st =
              loopT qdl dep (cs.reverse ++ ts1')
                { st with warns := st.warns ++ [wQL n] } := by
            simp [loopT, hqd, hfq]
          rw [e1, e2]
          exact ih _ ts2 _ hsz

theorem loopT_cons (qdl : String → Option (List (List Char)))
    (dep : String → Nat) (t : PTree) (ts : List PTree) (st : PrSt) :
    loopT qdl dep (t :: ts) st = loopT qdl dep ts (loopT qdl dep [t] st) :=
  loopT_append qdl dep (sizeL [t]) [t] ts st (le_refl _)

theorem loopT_eq_foldl (qdl : String → Option (List (List Char)))
    (dep : String → Nat) :
    ∀ (ts : List PTree) (st : PrSt),
      loopT qdl dep ts st = ts.foldl (fun s t => loopT qdl dep [t] s) st := by
  intro ts
  induction ts with
  | nil => intro st; simp [loopT]
  | cons t ts ih =>
    intro st
    rw [loopT_cons, List.foldl_cons, ih]

/-- C10: the report pass is a depth-first pre-order walk visiting each
package's children in reverse of the order their dependency declarations
were read: (i) on a queue of trees matching the recorded children links
the fuelled deque loop equals the structural tree walk `loopT`; (ii) the
head tree's whole subtree is rendered before anything of the tail; (iii) a
reported package renders as its own line followed by its children's
subtrees folded in reversed declaration order — with two or more children,
the last-declared child's subtree prints before the first-declared
child's. -/
theorem print_reverse_preorder (qdl : String → Option (List (List Char)))
    (dep : String → Nat) (cm : List (String × List String)) :
    (∀ fuel ts st, (∀ t ∈ ts, TreeMatches cm t) → sizeL ts ≤ fuel →
      printLoopN qdl dep cm fuel (ts.map labelOf) st = loopT qdl dep ts st) ∧
    (∀ t ts st, loopT qdl dep (t :: ts) st =
      loopT qdl dep ts (loopT qdl dep [t] st)) ∧
    (∀ n cs st ls q, qdl n = some ls → firstQualityLevel ls = some q →
      loopT qdl dep [.node n cs] st =
        (cs.reverse).foldl (fun s t => loopT qdl dep [t] s)
          { st with reps := st.reps ++ [renderLine (dep n) n q] }) := by
  refine ⟨printLoopN_eq_loopT qdl dep cm, loopT_cons qdl dep, ?_⟩
  intro n cs st ls q hqd hfq
  have e1 : loopT qdl dep [PTree.node n cs] st =
      loopT qdl dep (cs.reverse ++ [])
        { st with reps := st.reps ++ [renderLine (dep n) n q] } := by
    simp [loopT, hqd, hfq]
  rw [e1, List.append_nil, loopT_eq_foldl]

def cmSmall : List (String × List String) := [("r", ["a", "b"])]

def qdlSmall (n : String) : Option (List (List Char)) :=
  if n = "r" then some ["r claims to be in the **Quality Level 1**".toList]
  else if n = "a" then some ["a claims to be in the **Quality Level 2**".toList]
  else if n = "b" then some ["b claims to be in the **Quality Level 3**".toList]
  else none

def depSmall (n : String) : Nat := if n = "r" then 0 else 1

def tSmall : PTree := .node "r" [.node "a" [], .node "b" []]

theorem tSmall_matches : TreeMatches cmSmall tSmall := by
  refine TreeMatches.node _ _ (by rfl) ?_
  intro t ht
  rcases List.mem_cons.1 ht with rfl | ht'
  · exact TreeMatches.node _ _ (by rfl) (by intro t' ht'; simp at ht')
  · rw [List.mem_singleton.1 ht']
    exact TreeMatches.node _ _ (by rfl) (by intro t' ht'; simp at ht')

theorem print_reverse_preorder_witness :
    printLoopN qdlSmall depSmall cmSmall 3 ([tSmall].map labelOf) ⟨[], []⟩ =
      loopT qdlSmall depSmall [tSmall] ⟨[], []⟩ :=
  (print_reverse_preorder qdlSmall depSmall cmSmall).1 3 [tSmall] ⟨[], []⟩
    (by intro t ht; rw [List.mem_singleton.1 ht]; exact tSmall_matches)
    (by simp [tSmall, sizeL, sizeT])

/-! ## C4: missing quality declaration -/

/-- `R → A → C`; `A`'s declaration document will be missing. -/
def entsMissingDecl : List DirEntry :=
  [⟨"m/R", true, .ok [("name", "R"), ("depend", "A")]⟩,
   ⟨"m/A", true, .ok [("name", "A"), ("depend", "C")]⟩,
   ⟨"m/C", true, .ok [("name", "C")]⟩]

/-- Declarations for `R` and `C`, none for `A`. -/
def qdMissingDecl (p : String) : Option (List (List Char)) :=
  if p = "m/R/QUALITY_DECLARATION.md" then
    some ["R claims to be in the **Quality Level 1**".toList]
  else if p = "m/C/QUALITY_DECLARATION.md" then
    some ["C claims to be in the **Quality Level 2**".toList]
  else none

/-- The table the scan builds for `entsMissingDecl`. -/
def tbMissingDecl : Tbl :=
  [("C", ⟨"C", "m/C/QUALITY_DECLARATION.md", [("name", "C")]⟩),
   ("A", ⟨"A", "m/A/QUALITY_DECLARATION.md", [("name", "A"), ("depend", "C")]⟩),
   ("R", ⟨"R", "m/R/QUALITY_DECLARATION.md", [("name", "R"), ("depend", "A")]⟩)]

/-- C4 counterexample: `C` is discovered (it is in `depnames_found`) and
has a perfectly readable declaration, yet the report contains only `R`:
because `A`'s declaration is missing, the `continue` skips the
`extendleft` and `C`'s whole subtree is dropped — the traversal of the
missing-declaration package's children does NOT continue. -/
theorem print_missing_decl_cex :
    scanEntries entsMissingDecl = .ok tbMissingDecl ∧
    "C" ∈ (bfsRun tbMissingDecl [] true "R").found ∧
    (qdMissingDecl "m/C/QUALITY_DECLARATION.md").isSome = true ∧
    mainRun entsMissingDecl qdMissingDecl true [] "R" =
      .ok (0, [.warn (wQD "A"), .report "R: 1"]) :=
  ⟨by rfl, by decide, by rfl, by rfl⟩

/-- C4 amended: when a discovered package's declaration document is
missing, the pass emits the warning and then continues with the REST of
the deque only — the package and its entire subtree are omitted from the
report, while every other queued package is processed exactly as
before. -/
theorem print_missing_decl_amended (qdl : String → Option (List (List Char)))
    (dep : String → Nat) (cm : List (String × List String)) (n : String)
    (cs ts : List PTree) (st : PrSt) (fuel : Nat)
    (hmt : TreeMatches cm (.node n cs)) (hm : ∀ t ∈ ts, TreeMatches cm t)
    (hqd : qdl n = none) (hs : sizeT (.node n cs) + sizeL ts ≤ fuel + 1) :
    printLoopN qdl dep cm (fuel + 1) (n :: ts.map labelOf) st =
      loopT qdl dep ts { st with warns := st.warns ++ [wQD n] } := by
  have hstep : printLoopN qdl dep cm (fuel + 1) (n :: ts.map labelOf) st =
      printLoopN qdl dep cm fuel (ts.map labelOf)
        { st with warns := st.warns ++ [wQD n] } := by
    simp [printLoopN, hqd]
  rw [hstep]
  refine printLoopN_eq_loopT qdl dep cm fuel ts _ hm ?_
  have h1 := sizeT_pos (PTree.node n cs)
  omega

theorem print_missing_decl_amended_witness :
    printLoopN (fun _ => none) (fun _ => 0) [("a", ["c"])] 3
      ("a" :: ([] : List PTree).map labelOf) ⟨[], []⟩ =
      loopT (fun _ => none) (fun _ => 0) []
        { warns := ([] : List String) ++ [wQD "a"], reps := ([] : List String) } :=
  print_missing_decl_amended (fun _ => none) (fun _ => 0) [("a", ["c"])]
    "a" [.node "c" []] [] ⟨[], []⟩ 2
    (TreeMatches.node _ _ (by rfl)
      (by intro t ht; rw [List.mem_singleton.1 ht]
          exact TreeMatches.node _ _ (by rfl) (by intro t' ht'; simp at ht')))
    (by intro t ht; simp at ht) (by rfl) (by simp [sizeT, sizeL])

/-! ## C5: declaration present but no quality-level line -/

/-- `R → B`; `B`'s declaration exists but no line matches the pattern. -/
def entsMissingLevel : List DirEntry :=
  [⟨"l/R", true, .ok [("name", "R"), ("depend", "B")]⟩,
   ⟨"l/B", true, .ok [("name", "B")]⟩]

def qdMissingLevel (p : String) : Option (List (List Char)) :=
  if p = "l/R/QUALITY_DECLARATION.md" then
    some ["R claims to be in the **Quality Level 1**".toList]
  else if p = "l/B/QUALITY_DECLARATION.md" then
    some ["no quality level claim in here".toList, "second line".toList]
  else none

/-- C5 counterexample: `B`'s declaration is readable but matches no line;
the run warns and then prints NO line at all for `B` — the report contains
only `R: 1`, with no `unknown` placeholder for `B` anywhere. -/
theorem print_missing_level_cex :
    mainRun entsMissingLevel qdMissingLevel true [] "R" =
      .ok (0, [.warn (wQL "B"), .report "R: 1"]) ∧
    (∀ l ∈ ([.warn (wQL "B"), .report "R: 1"] : List OutLine),
      l.isReport = true → l = .report "R: 1") :=
  ⟨by rfl, by decide⟩

/-- C5 amended: a package whose declaration exists but contains no
quality-level line gets the warning and is OMITTED from the report —
no line (and no `unknown` placeholder) is emitted for it — while its
children are still pushed and processed as usual. -/
theorem print_missing_level_amended (qdl : String → Option (List (List Char)))
    (dep : String → Nat) (cm : List (String × List String)) (n : String)
    (cs ts : List PTree) (st : PrSt) (fuel : Nat) (ls : List (List Char))
    (hmt : TreeMatches cm (.node n cs)) (hm : ∀ t ∈ ts, TreeMatches cm t)
    (hqd : qdl n = some ls) (hfq : firstQualityLevel ls = none)
    (hs : sizeT (.node n cs) + sizeL ts ≤ fuel + 1) :
    printLoopN qdl dep cm (fuel + 1) (n :: ts.map labelOf) st =
      loopT qdl dep (cs.reverse ++ ts) { st with warns := st.warns ++ [wQL n] } := by
  have hlab : cs.map labelOf = childrenOfA cm n := by
    cases hmt with
    | node _ _ hlab _ => exact hlab
  have hsub : ∀ t ∈ cs, TreeMatches cm t := by
    cases hmt with
    | node _ _ _ hsub => exact hsub
  have hstep : printLoopN qdl dep cm (fuel + 1) (n :: ts.map labelOf) st =
      printLoopN qdl dep cm fuel
        ((childrenOfA cm n).reverse ++ ts.map labelOf)
        { st with warns := st.warns ++ [wQL n] } := by
    simp [printLoopN, hqd, hfq]
  have hql : (childrenOfA cm n).reverse ++ ts.map labelOf =
      (cs.reverse ++ ts).map labelOf := by
    rw [← hlab, ← List.map_reverse, ← List.map_append]
  rw [hstep, hql]
  refine printLoopN_eq_loopT qdl dep cm fuel _ _ ?_ ?_
  · intro t ht
    rcases List.mem_append.1 ht with ht' | ht'
    · exact hsub t (List.mem_reverse.1 ht')
    · exact hm t ht'
  · rw [sizeL_append, sizeL_reverse]
    rw [sizeT] at hs
    omega

def qdlNoLevel (n : String) : Option (List (List Char)) :=
  if n = "a" then some ["nothing declared here".toList]
  else if n = "c" then some ["c claims to be in the **Quality Level 4**".toList]
  else none

theorem print_missing_level_amended_witness :
    printLoopN qdlNoLevel (fun _ => 0) [("a", ["c"])] 3
      ("a" :: ([] : List PTree).map labelOf) ⟨[], []⟩ =
      loopT qdlNoLevel (fun _ => 0) (([.node "c" []] : List PTree).reverse ++ [])
        { warns := ([] : List String) ++ [wQL "a"], reps := ([] : List String) } :=
  print_missing_level_amended qdlNoLevel (fun _ => 0) [("a", ["c"])]
    "a" [.node "c" []] [] ⟨[], []⟩ 2 ["nothing declared here".toList]
    (TreeMatches.node _ _ (by rfl)
      (by intro t ht; rw [List.mem_singleton.1 ht]
          exact TreeMatches.node _ _ (by rfl) (by intro t' ht'; simp at ht')))
    (by intro t ht; simp at ht) (by rfl) (by rfl) (by simp [sizeT, sizeL])

end WalkQds
